import Mathlib

/-!
SENSES (HSSTT) scoring: verification development.

Shallow embedding of `src/senses.py` (functions `remove_outliers` and
`compute_senses`) over exact rationals, together with proofs of the
specification's testable properties.

Python floats are modelled by `ℚ`; the only irrational quantity in the
source, the population standard deviation `σ = √variance` used inside the
z-score comparison of `remove_outliers`, is handled by a decidable
comparison `zscoreLe` that is proved (in `zscoreLe_iff`) to coincide with
the real-valued comparison `|v - μ| / (√var + 1e-9) ≤ t`.
The JSON string produced by `json.dumps` of the rounded score dictionary is
modelled by its payload record `SensesMetadata`; Python's `round(x, 2)`
(round-half-to-even at two decimals) is modelled exactly by `round2`.
-/

namespace Senses

/-- The stabiliser `1e-9` added to the standard deviation in `remove_outliers`. -/
def zEps : ℚ := 1 / 1000000000

/-- Population mean: `np.mean` (`sum / N`; `0` on the empty list, which the
source never hits on an empty list along any executed path). -/
def popMean (xs : List ℚ) : ℚ := xs.sum / (xs.length : ℚ)

/-- Population variance: square of `np.std` (divide by `N`, not `N - 1`). -/
def popVar (xs : List ℚ) : ℚ :=
  ((xs.map fun v => (v - popMean xs) ^ 2).sum) / (xs.length : ℚ)

/-- Decides the source's z-score test `|v - mean| / (std + 1e-9) ≤ t`, where
`std = √var`, without computing the square root: for `t < 0` the test is
always false, for `|v - mean| ≤ t·ε` always true, and otherwise both sides
of `|v - mean| - t·ε ≤ t·√var` are nonnegative, so squaring is exact.
`zscoreLe_iff` below proves this equivalence. -/
def zscoreLe (mean var t v : ℚ) : Bool :=
  if t < 0 then false
  else if |v - mean| ≤ t * zEps then true
  else decide ((|v - mean| - t * zEps) ^ 2 ≤ t ^ 2 * var)

/-- Function `remove_outliers(data_list, threshold)` from `src/senses.py`.
Fewer than 2 elements: returned unchanged.  `std == 0` (equivalently
`var == 0`, since `var ≥ 0`): returned unchanged.  Otherwise keep exactly
the values whose z-score is at most the threshold, preserving order
(`data_arr[z_scores <= threshold]`). -/
def remove_outliers (data_list : List ℚ) (threshold : ℚ) : List ℚ :=
  if data_list.length < 2 then data_list
  else if popVar data_list = 0 then data_list
  else data_list.filter (zscoreLe (popMean data_list) (popVar data_list) threshold)

/-- Maximum of a nonempty list, as `np.max` (`0` on the empty list, never used there). -/
def listMax : List ℚ → ℚ
  | [] => 0
  | a :: rest => rest.foldl max a

/-- Round-half-to-even to an integer (Python 3 `round` on an exact value). -/
def roundHalfEven (q : ℚ) : ℤ :=
  let f := ⌊q⌋
  let frac := q - (f : ℚ)
  if frac < 1 / 2 then f
  else if 1 / 2 < frac then f + 1
  else if f % 2 = 0 then f else f + 1

/-- Python `round(x, 2)` on an exact rational. -/
def round2 (q : ℚ) : ℚ := (roundHalfEven (q * 100) : ℚ) / 100

/-- An element of the `application_successes` list: either a genuine boolean
or some non-boolean Python value (only its non-booleanness matters). -/
inductive SuccessValue
  | boolean (b : Bool)
  | nonBoolean
deriving DecidableEq, Repr

/-- Test `isinstance(x, bool)`. -/
def SuccessValue.isBoolean : SuccessValue → Bool
  | .boolean _ => true
  | .nonBoolean => false

/-- Whether the element counts as a success (`True`) in `sum(successes)`. -/
def SuccessValue.isTrue : SuccessValue → Bool
  | .boolean b => b
  | .nonBoolean => false

/-- The `RatingsData` mapping: each required key may be absent
(`TypedDict(total=False)`), hence the `Option` fields.  `custom_metric` is
carried but unused, as in the source. -/
structure RatingsData where
  coherence_ratings : Option (List ℚ)
  structural_feedback : Option (List ℚ)
  novelty_indicators : Option (List ℚ)
  application_successes : Option (List SuccessValue)
  likability_scores : Option (List ℚ)
  custom_metric : Option (List ℚ)
deriving DecidableEq, Repr

/-- The argument passed for `ratings_data`: either not a dictionary at all,
or a dictionary (`RatingsData`). -/
inductive RatingsInput
  | notADict
  | dict (d : RatingsData)
deriving DecidableEq, Repr

/-- The three `ValueError` causes raised inside `compute_senses`, each
re-raised to the caller as a single `RuntimeError` wrapping the cause. -/
inductive SensesError
  | notADict
  | missingKeys (keys : List String)
  | nonBooleanSuccess
deriving DecidableEq, Repr

/-- The payload of the serialized JSON metadata: the five scores rounded to
two decimal places. -/
structure SensesMetadata where
  hear : ℚ
  see : ℚ
  smell : ℚ
  touch : ℚ
  taste : ℚ
deriving DecidableEq, Repr

/-- List `required_keys` from `compute_senses`. -/
def required_keys : List String :=
  ["coherence_ratings", "structural_feedback", "novelty_indicators",
   "application_successes", "likability_scores"]

/-- Membership test `key in ratings_data` for the five required keys. -/
def hasKey (d : RatingsData) (k : String) : Bool :=
  if k = "coherence_ratings" then d.coherence_ratings.isSome
  else if k = "structural_feedback" then d.structural_feedback.isSome
  else if k = "novelty_indicators" then d.novelty_indicators.isSome
  else if k = "application_successes" then d.application_successes.isSome
  else if k = "likability_scores" then d.likability_scores.isSome
  else true

/-- The comprehension `[key for key in required_keys if key not in ratings_data]`. -/
def requiredMissing (d : RatingsData) : List String :=
  required_keys.filter fun k => !hasKey d k

/-- Hear: filter coherence ratings to `[0, 1]`, remove outliers, mean of the
survivors (`0.0` if none survive). -/
def hear_of (coherence_ratings : List ℚ) (t : ℚ) : ℚ :=
  let coherence_filtered :=
    coherence_ratings.filter fun v => decide (0 ≤ v) && decide (v ≤ 1)
  let coherence_clean := remove_outliers coherence_filtered t
  if coherence_clean.isEmpty then 0 else popMean coherence_clean

/-- See: same pipeline as Hear, on `structural_feedback`. -/
def see_of (structural_feedback : List ℚ) (t : ℚ) : ℚ :=
  let structural_filtered :=
    structural_feedback.filter fun v => decide (0 ≤ v) && decide (v ≤ 1)
  let structural_clean := remove_outliers structural_filtered t
  if structural_clean.isEmpty then 0 else popMean structural_clean

/-- Smell: remove outliers from the raw novelty values, take absolute
values, and normalise the mean by
`np.max(novelty_abs) if len(novelty_abs) and np.any(novelty_abs > 0) else 1.0`. -/
def smell_of (novelty_indicators : List ℚ) (t : ℚ) : ℚ :=
  let novelty_clean := remove_outliers novelty_indicators t
  let novelty_abs := novelty_clean.map fun v => |v|
  let max_abs :=
    if !novelty_abs.isEmpty && novelty_abs.any (fun a => decide (0 < a))
    then listMax novelty_abs else 1
  if novelty_abs.isEmpty then 0 else popMean novelty_abs / max_abs

/-- Touch: `sum(successes) / len(successes) if successes else 0.0`. -/
def touch_of (successes : List SuccessValue) : ℚ :=
  if successes.isEmpty then 0
  else ((successes.countP SuccessValue.isTrue : ℕ) : ℚ) / (successes.length : ℚ)

/-- Taste: filter likability scores to `[1, 5]`, remove outliers, then
`(mean - 1) / 4` of the survivors (`0.0` if none survive). -/
def taste_of (likability_scores : List ℚ) (t : ℚ) : ℚ :=
  let likability_filtered :=
    likability_scores.filter fun v => decide (1 ≤ v) && decide (v ≤ 5)
  let likability_clean := remove_outliers likability_filtered t
  if likability_clean.isEmpty then 0 else (popMean likability_clean - 1) / 4

/-- The five scores of a validated bundle, in HSSTT order. -/
def senses_values (d : RatingsData) (t : ℚ) : List ℚ :=
  [hear_of (d.coherence_ratings.getD []) t,
   see_of (d.structural_feedback.getD []) t,
   smell_of (d.novelty_indicators.getD []) t,
   touch_of (d.application_successes.getD []),
   taste_of (d.likability_scores.getD []) t]

/-- Composite: `composite_score = float(np.mean(hsstt_values))`. -/
def composite_of (d : RatingsData) (t : ℚ) : ℚ := popMean (senses_values d t)

/-- The serialized metadata: each score rounded to two decimal places. -/
def metadata_of (d : RatingsData) (t : ℚ) : SensesMetadata :=
  ⟨round2 (hear_of (d.coherence_ratings.getD []) t),
   round2 (see_of (d.structural_feedback.getD []) t),
   round2 (smell_of (d.novelty_indicators.getD []) t),
   round2 (touch_of (d.application_successes.getD [])),
   round2 (taste_of (d.likability_scores.getD []) t)⟩

/-- Function `compute_senses(ratings_data, z_threshold)` from `src/senses.py`.
Validation order follows the source: the dictionary check, then the
missing-keys check (collecting every missing key), then — before any result
is produced — the boolean-homogeneity check on `application_successes`.
The numeric pipeline is total, so computing the scores after the checks
(rather than interleaved as the source's straight-line code does) yields
the same result and the same single error. -/
def compute_senses (ratings_data : RatingsInput) (z_threshold : ℚ) :
    Except SensesError (SensesMetadata × ℚ) :=
  match ratings_data with
  | .notADict => .error .notADict
  | .dict d =>
    let missing_keys := requiredMissing d
    if !missing_keys.isEmpty then .error (.missingKeys missing_keys)
    else
      let successes := d.application_successes.getD []
      if !successes.all SuccessValue.isBoolean then .error .nonBooleanSuccess
      else .ok (metadata_of d z_threshold, composite_of d z_threshold)

/-- A bundle that passes both validation checks. -/
def validBundle (d : RatingsData) : Bool :=
  (requiredMissing d).isEmpty &&
    (d.application_successes.getD []).all SuccessValue.isBoolean

/-- Population standard deviation, `np.std`, as the real number `√popVar`. -/
noncomputable def popStd (xs : List ℚ) : ℝ := Real.sqrt ((popVar xs : ℚ) : ℝ)

/-! ## General lemmas about the embedded functions -/

theorem popVar_nonneg (xs : List ℚ) : 0 ≤ popVar xs := by
  unfold popVar
  apply div_nonneg
  · apply List.sum_nonneg
    intro x hx
    simp only [List.mem_map] at hx
    obtain ⟨v, -, rfl⟩ := hx
    positivity
  · positivity

theorem remove_outliers_sublist (xs : List ℚ) (t : ℚ) :
    List.Sublist (remove_outliers xs t) xs := by
  unfold remove_outliers
  split
  · exact List.Sublist.refl xs
  · split
    · exact List.Sublist.refl xs
    · exact List.filter_sublist xs

theorem mem_of_mem_remove_outliers {xs : List ℚ} {t v : ℚ}
    (h : v ∈ remove_outliers xs t) : v ∈ xs :=
  (remove_outliers_sublist xs t).subset h

theorem length_mul_le_sum (xs : List ℚ) (a : ℚ) (h : ∀ v ∈ xs, a ≤ v) :
    (xs.length : ℚ) * a ≤ xs.sum := by
  induction xs with
  | nil => simp
  | cons x l ih =>
    have hx := h x (by simp)
    have hl := ih fun v hv => h v (List.mem_cons_of_mem x hv)
    simp only [List.length_cons, List.sum_cons]
    push_cast
    nlinarith [hx, hl]

theorem sum_le_length_mul (xs : List ℚ) (b : ℚ) (h : ∀ v ∈ xs, v ≤ b) :
    xs.sum ≤ (xs.length : ℚ) * b := by
  induction xs with
  | nil => simp
  | cons x l ih =>
    have hx := h x (by simp)
    have hl := ih fun v hv => h v (List.mem_cons_of_mem x hv)
    simp only [List.length_cons, List.sum_cons]
    push_cast
    nlinarith [hx, hl]

theorem le_popMean {xs : List ℚ} {a : ℚ} (hne : xs ≠ [])
    (h : ∀ v ∈ xs, a ≤ v) : a ≤ popMean xs := by
  have hn : (0 : ℚ) < (xs.length : ℚ) := by
    exact_mod_cast List.length_pos.mpr hne
  unfold popMean
  rw [le_div_iff₀ hn]
  have := length_mul_le_sum xs a h
  linarith [this]

theorem popMean_le {xs : List ℚ} {b : ℚ} (hne : xs ≠ [])
    (h : ∀ v ∈ xs, v ≤ b) : popMean xs ≤ b := by
  have hn : (0 : ℚ) < (xs.length : ℚ) := by
    exact_mod_cast List.length_pos.mpr hne
  unfold popMean
  rw [div_le_iff₀ hn]
  have := sum_le_length_mul xs b h
  linarith [this]

theorem le_foldl_max (l : List ℚ) (a : ℚ) :
    a ≤ l.foldl max a ∧ ∀ v ∈ l, v ≤ l.foldl max a := by
  induction l generalizing a with
  | nil => simp
  | cons x l ih =>
    refine ⟨le_trans (le_max_left a x) (ih (max a x)).1, ?_⟩
    intro v hv
    rcases List.mem_cons.mp hv with rfl | hv
    · exact le_trans (le_max_right a v) (ih (max a v)).1
    · exact (ih (max a x)).2 v hv

theorem le_listMax {xs : List ℚ} {v : ℚ} (h : v ∈ xs) : v ≤ listMax xs := by
  cases xs with
  | nil => simp at h
  | cons a l =>
    rcases List.mem_cons.mp h with rfl | hv
    · exact (le_foldl_max l v).1
    · exact (le_foldl_max l a).2 v hv

/-- The decidable test `zscoreLe` coincides with the source's real-valued
z-score comparison `|v - mean| / (√var + 1e-9) ≤ t`. -/
theorem zscoreLe_iff (mean var t v : ℚ) (hvar : 0 ≤ var) :
    zscoreLe mean var t v = true ↔
      |(v : ℝ) - (mean : ℝ)| / (Real.sqrt ((var : ℚ) : ℝ) + ((zEps : ℚ) : ℝ))
        ≤ ((t : ℚ) : ℝ) := by
  have hε : (0 : ℝ) < ((zEps : ℚ) : ℝ) := by
    rw [zEps]; push_cast; norm_num
  have hσ0 : (0 : ℝ) ≤ Real.sqrt ((var : ℚ) : ℝ) := Real.sqrt_nonneg _
  have hvarR : (0 : ℝ) ≤ ((var : ℚ) : ℝ) := by exact_mod_cast hvar
  have hd : (0 : ℝ) < Real.sqrt ((var : ℚ) : ℝ) + ((zEps : ℚ) : ℝ) := by linarith
  rw [div_le_iff₀ hd]
  unfold zscoreLe
  split_ifs with ht hb
  · have htR : ((t : ℚ) : ℝ) < 0 := by exact_mod_cast ht
    apply iff_of_false (by simp)
    intro hc
    have habs : (0 : ℝ) ≤ |(v : ℝ) - (mean : ℝ)| := abs_nonneg _
    have hneg := mul_neg_of_neg_of_pos htR hd
    linarith
  · apply iff_of_true rfl
    have htR : (0 : ℝ) ≤ ((t : ℚ) : ℝ) := by exact_mod_cast not_lt.mp ht
    have hbR : |(v : ℝ) - (mean : ℝ)| ≤ ((t : ℚ) : ℝ) * ((zEps : ℚ) : ℝ) := by
      exact_mod_cast hb
    nlinarith [mul_nonneg htR hσ0]
  · simp only [decide_eq_true_eq]
    have htR : (0 : ℝ) ≤ ((t : ℚ) : ℝ) := by exact_mod_cast not_lt.mp ht
    push_neg at hb
    have hbR : ((t : ℚ) : ℝ) * ((zEps : ℚ) : ℝ) < |(v : ℝ) - (mean : ℝ)| := by
      exact_mod_cast hb
    have key : ((|v - mean| - t * zEps : ℚ) : ℝ) ≤
          ((t : ℚ) : ℝ) * Real.sqrt ((var : ℚ) : ℝ) ↔
        ((|v - mean| - t * zEps : ℚ) : ℝ) ^ 2 ≤ ((t : ℚ) : ℝ) ^ 2 * ((var : ℚ) : ℝ) := by
      have hpos : (0 : ℝ) < ((|v - mean| - t * zEps : ℚ) : ℝ) := by
        push_cast
        push_cast at hbR
        linarith
      rw [show ((t : ℚ) : ℝ) * Real.sqrt ((var : ℚ) : ℝ)
            = Real.sqrt (((t : ℚ) : ℝ) ^ 2 * ((var : ℚ) : ℝ)) by
          rw [Real.sqrt_mul (by positivity), Real.sqrt_sq htR]]
      exact Real.le_sqrt' hpos
    constructor
    · intro h
      have hQ : ((|v - mean| - t * zEps : ℚ) : ℝ) ^ 2
          ≤ ((t : ℚ) : ℝ) ^ 2 * ((var : ℚ) : ℝ) := by exact_mod_cast h
      have h2 := key.mpr hQ
      push_cast at h2 ⊢
      linarith
    · intro h
      have h2 : ((|v - mean| - t * zEps : ℚ) : ℝ)
          ≤ ((t : ℚ) : ℝ) * Real.sqrt ((var : ℚ) : ℝ) := by
        push_cast
        push_cast at h
        linarith
      exact_mod_cast key.mp h2

/-! ## The claims -/

/-- Claim C2: for every list of at least 2 values with nonzero population
standard deviation and every threshold, `remove_outliers` returns exactly the
order-preserving subsequence of values `v` with
`|v − μ| / (σ + 1e-9) ≤ threshold`, where `μ` is the population mean and
`σ = √(population variance)` (divide by `N`, not `N − 1`). -/
theorem C2_remove_outliers_is_zscore_filter (xs : List ℚ) (t : ℚ)
    (hlen : 2 ≤ xs.length) (hσ : popStd xs ≠ 0) :
    remove_outliers xs t = xs.filter (zscoreLe (popMean xs) (popVar xs) t) ∧
    ∀ v : ℚ, zscoreLe (popMean xs) (popVar xs) t v = true ↔
      |(v : ℝ) - ((popMean xs : ℚ) : ℝ)| / (popStd xs + ((zEps : ℚ) : ℝ))
        ≤ ((t : ℚ) : ℝ) := by
  have hvar : ¬ popVar xs = 0 := by
    intro h0
    apply hσ
    rw [popStd, h0]
    simp
  refine ⟨?_, ?_⟩
  · unfold remove_outliers
    rw [if_neg (by omega), if_neg hvar]
  · intro v
    rw [popStd]
    exact zscoreLe_iff _ _ _ _ (popVar_nonneg xs)

/-- Witness for C2 at the concrete input `[0, 4]`, threshold `3`. -/
theorem C2_witness :
    (2 ≤ ([0, 4] : List ℚ).length ∧ popStd [0, 4] ≠ 0) ∧
    remove_outliers [0, 4] 3
      = List.filter (zscoreLe (popMean [0, 4]) (popVar [0, 4]) 3) [0, 4] := by
  have hσ : popStd [0, 4] ≠ 0 := by
    rw [popStd, show popVar [0, 4] = 4 by norm_num [popVar, popMean], Real.sqrt_ne_zero']
    norm_num
  exact ⟨⟨by decide, hσ⟩,
    (C2_remove_outliers_is_zscore_filter [0, 4] 3 (by decide) hσ).1⟩

/-- Claim C6: `remove_outliers` returns its input unchanged both for lists with
fewer than 2 elements and for lists of 2 or more elements whose population
standard deviation is zero. -/
theorem C6_remove_outliers_identity (xs : List ℚ) (t : ℚ)
    (h : xs.length < 2 ∨ (2 ≤ xs.length ∧ popStd xs = 0)) :
    remove_outliers xs t = xs := by
  rcases h with h | ⟨hn, hσ⟩
  · unfold remove_outliers
    rw [if_pos h]
  · have hvar : popVar xs = 0 := by
      rw [popStd, Real.sqrt_eq_zero'] at hσ
      have h1 : popVar xs ≤ 0 := by exact_mod_cast hσ
      exact le_antisymm h1 (popVar_nonneg xs)
    unfold remove_outliers
    rw [if_neg (by omega), if_pos hvar]

/-- Witness for C6 at the all-identical list `[4, 4, 4]`, threshold `7`. -/
theorem C6_witness :
    (2 ≤ ([4, 4, 4] : List ℚ).length ∧ popStd [4, 4, 4] = 0) ∧
    remove_outliers [4, 4, 4] 7 = [4, 4, 4] := by
  have hσ : popStd [4, 4, 4] = 0 := by
    rw [popStd, show popVar [4, 4, 4] = 0 by norm_num [popVar, popMean]]
    simp
  exact ⟨⟨by decide, hσ⟩,
    C6_remove_outliers_identity [4, 4, 4] 7 (Or.inr ⟨by decide, hσ⟩)⟩

/-- The bundle with all five sequences present and empty. -/
def emptyBundle : RatingsData :=
  ⟨some [], some [], some [], some [], some [], none⟩

/-- Claim C5: on the bundle whose five sequences are all empty,
`compute_senses` succeeds with all five scores `0.0` and composite `0.0`
(for every threshold). -/
theorem C5_all_empty_yields_zero (t : ℚ) :
    compute_senses (.dict emptyBundle) t = .ok (⟨0, 0, 0, 0, 0⟩, 0) := by
  simp [compute_senses, emptyBundle, requiredMissing, required_keys, hasKey,
    metadata_of, composite_of, senses_values, hear_of, see_of, smell_of,
    touch_of, taste_of, remove_outliers, popMean, round2, roundHalfEven, listMax]

/-- Claim C3: on the reference bundle with the default threshold `3.0`,
`compute_senses` returns the summary
`{hear: 0.8, see: 0.83, smell: 0.56, touch: 0.67, taste: 0.86}` (each score
rounded to 2 decimals) and the composite `1337/1800`, which is within
`0.001` of `0.743`. -/
theorem C3_reference_scenario :
    compute_senses (.dict ⟨some [0.8, 0.9, 0.7], some [0.85, 0.75, 0.9],
        some [1.2, 0.5, -0.3],
        some [.boolean true, .boolean true, .boolean false],
        some [4.5, 5.0, 3.8], none⟩) 3
      = .ok (⟨0.8, 0.83, 0.56, 0.67, 0.86⟩, 1337 / 1800) ∧
    |(1337 / 1800 : ℚ) - 0.743| < 1 / 1000 := by
  constructor
  · norm_num [compute_senses, requiredMissing, required_keys, hasKey,
      metadata_of, composite_of, senses_values, hear_of, see_of, smell_of,
      touch_of, taste_of, remove_outliers, popVar, popMean, zscoreLe, zEps,
      List.filter_cons, decide_eq_true_eq, abs_of_pos, abs_of_nonneg, abs_neg,
      listMax, round2, roundHalfEven, SuccessValue.isBoolean,
      SuccessValue.isTrue, List.countP_cons]
  · rw [abs_lt]
    constructor <;> norm_num

/-- Inserting a value the domain filter rejects does not change the filtered
list. -/
theorem filter_middle_out (p : ℚ → Bool) (l₁ l₂ : List ℚ) (x : ℚ)
    (hx : p x = false) :
    (l₁ ++ x :: l₂).filter p = (l₁ ++ l₂).filter p := by
  simp [List.filter_append, List.filter_cons, hx]

theorem hear_of_insert (l₁ l₂ : List ℚ) (t x : ℚ) (hx : ¬ (0 ≤ x ∧ x ≤ 1)) :
    hear_of (l₁ ++ x :: l₂) t = hear_of (l₁ ++ l₂) t := by
  have hp : (decide (0 ≤ x) && decide (x ≤ 1)) = false := by
    rw [Bool.eq_false_iff]
    simp only [ne_eq, Bool.and_eq_true, decide_eq_true_eq]
    exact hx
  simp only [hear_of]
  rw [filter_middle_out _ _ _ _ hp]

theorem see_of_insert (l₁ l₂ : List ℚ) (t x : ℚ) (hx : ¬ (0 ≤ x ∧ x ≤ 1)) :
    see_of (l₁ ++ x :: l₂) t = see_of (l₁ ++ l₂) t := by
  have hp : (decide (0 ≤ x) && decide (x ≤ 1)) = false := by
    rw [Bool.eq_false_iff]
    simp only [ne_eq, Bool.and_eq_true, decide_eq_true_eq]
    exact hx
  simp only [see_of]
  rw [filter_middle_out _ _ _ _ hp]

theorem taste_of_insert (l₁ l₂ : List ℚ) (t x : ℚ) (hx : ¬ (1 ≤ x ∧ x ≤ 5)) :
    taste_of (l₁ ++ x :: l₂) t = taste_of (l₁ ++ l₂) t := by
  have hp : (decide (1 ≤ x) && decide (x ≤ 5)) = false := by
    rw [Bool.eq_false_iff]
    simp only [ne_eq, Bool.and_eq_true, decide_eq_true_eq]
    exact hx
  simp only [taste_of]
  rw [filter_middle_out _ _ _ _ hp]

/-- Claim C7: out-of-domain values never influence the domain-filtered signals:
inserting a value outside `[0, 1]` anywhere into the coherence
(resp. structural) sequence leaves `hear` (resp. `see`) exactly unchanged, and
inserting a value outside `[1, 5]` into the likability sequence leaves `taste`
exactly unchanged — for every surrounding bundle contents and every
threshold. -/
theorem C7_domain_filter_idempotence (l₁ l₂ : List ℚ) (t x : ℚ) :
    ((x < 0 ∨ 1 < x) →
      hear_of (l₁ ++ x :: l₂) t = hear_of (l₁ ++ l₂) t ∧
      see_of (l₁ ++ x :: l₂) t = see_of (l₁ ++ l₂) t) ∧
    ((x < 1 ∨ 5 < x) →
      taste_of (l₁ ++ x :: l₂) t = taste_of (l₁ ++ l₂) t) := by
  constructor
  · intro hx
    have hx' : ¬ (0 ≤ x ∧ x ≤ 1) := by
      rcases hx with h | h
      · intro hc
        linarith [hc.1]
      · intro hc
        linarith [hc.2]
    exact ⟨hear_of_insert l₁ l₂ t x hx', see_of_insert l₁ l₂ t x hx'⟩
  · intro hx
    have hx' : ¬ (1 ≤ x ∧ x ≤ 5) := by
      rcases hx with h | h
      · intro hc
        linarith [hc.1]
      · intro hc
        linarith [hc.2]
    exact taste_of_insert l₁ l₂ t x hx'

/-- Witness for C7: inserting `2` (outside `[0, 1]`) between `1/2` and `3/4`
leaves `hear` unchanged, and inserting `6` (outside `[1, 5]`) leaves `taste`
unchanged. -/
theorem C7_witness :
    (((2 : ℚ) < 0 ∨ 1 < (2 : ℚ)) ∧
      hear_of ([1/2] ++ 2 :: [3/4]) 3 = hear_of ([1/2] ++ [3/4]) 3) ∧
    (((6 : ℚ) < 1 ∨ 5 < (6 : ℚ)) ∧
      taste_of ([2] ++ 6 :: [4]) 3 = taste_of ([2] ++ [4]) 3) :=
  ⟨⟨Or.inr (by norm_num),
      ((C7_domain_filter_idempotence [1/2] [3/4] 3 2).1 (Or.inr (by norm_num))).1⟩,
   ⟨Or.inr (by norm_num),
      (C7_domain_filter_idempotence [2] [4] 3 6).2 (Or.inr (by norm_num))⟩⟩

/-- Claim C4, counterexample: injecting `1e6` into `novelty_indicators` of the
reference bundle is *not* filtered as an outlier (the value stays in the
list returned by `remove_outliers` at the default threshold), and it shifts
the smell score by more than `1/4` — from `5/9` down to about `0.25`. -/
theorem C4_counterexample :
    (1000000 : ℚ) ∈ remove_outliers [1.2, 0.5, -0.3, 1000000] 3 ∧
    1 / 4 < |smell_of [1.2, 0.5, -0.3] 3 - smell_of [1.2, 0.5, -0.3, 1000000] 3| := by
  have h1 : remove_outliers [1.2, 0.5, -0.3, 1000000] 3
      = [1.2, 0.5, -0.3, 1000000] := by
    norm_num [remove_outliers, popVar, popMean, zscoreLe, zEps,
      List.filter_cons, decide_eq_true_eq, abs_of_pos, abs_of_nonneg, abs_neg]
  have h2 : smell_of [1.2, 0.5, -0.3] 3 = 5 / 9 := by
    norm_num [smell_of, remove_outliers, popVar, popMean, zscoreLe, zEps,
      List.filter_cons, decide_eq_true_eq, abs_of_pos, abs_of_nonneg, abs_neg,
      listMax]
  have h3 : smell_of [1.2, 0.5, -0.3, 1000000] 3 = 500001 / 2000000 := by
    norm_num [smell_of, remove_outliers, popVar, popMean, zscoreLe, zEps,
      List.filter_cons, decide_eq_true_eq, abs_of_pos, abs_of_nonneg, abs_neg,
      listMax]
  refine ⟨?_, ?_⟩
  · rw [h1]
    simp
  · rw [h2, h3, abs_of_pos (by norm_num)]
    norm_num

/-- Claim C4 (amended): injecting the extreme value `1e6` into
`coherence_ratings` or `likability_scores` leaves the corresponding score
(`hear` resp. `taste`) exactly equal to the score without it, for every
surrounding data and every threshold — because `1e6` lies outside the
signal's domain (`[0,1]` resp. `[1,5]`) and is discarded by the domain
filter before any statistics.  For `novelty_indicators`, which has no domain
filter, the original claim fails (see the counterexample). -/
theorem C4_extreme_value_robustness (l₁ l₂ : List ℚ) (t : ℚ) :
    hear_of (l₁ ++ 1000000 :: l₂) t = hear_of (l₁ ++ l₂) t ∧
    taste_of (l₁ ++ 1000000 :: l₂) t = taste_of (l₁ ++ l₂) t :=
  ⟨hear_of_insert l₁ l₂ t 1000000 (by norm_num),
   taste_of_insert l₁ l₂ t 1000000 (by norm_num)⟩

theorem hear_of_mem_Icc (l : List ℚ) (t : ℚ) :
    hear_of l t ∈ Set.Icc (0 : ℚ) 1 := by
  simp only [hear_of]
  split_ifs with h
  · simp
  · have hne : remove_outliers (l.filter fun v => decide (0 ≤ v) && decide (v ≤ 1)) t ≠ [] :=
      fun hc => h (by rw [hc]; rfl)
    have hmem : ∀ v ∈ remove_outliers (l.filter fun v => decide (0 ≤ v) && decide (v ≤ 1)) t,
        0 ≤ v ∧ v ≤ 1 := by
      intro v hv
      have hvf := (List.mem_filter.mp (mem_of_mem_remove_outliers hv)).2
      simpa [Bool.and_eq_true, decide_eq_true_eq] using hvf
    exact Set.mem_Icc.mpr ⟨le_popMean hne fun v hv => (hmem v hv).1,
      popMean_le hne fun v hv => (hmem v hv).2⟩

theorem see_of_mem_Icc (l : List ℚ) (t : ℚ) :
    see_of l t ∈ Set.Icc (0 : ℚ) 1 := by
  simp only [see_of]
  split_ifs with h
  · simp
  · have hne : remove_outliers (l.filter fun v => decide (0 ≤ v) && decide (v ≤ 1)) t ≠ [] :=
      fun hc => h (by rw [hc]; rfl)
    have hmem : ∀ v ∈ remove_outliers (l.filter fun v => decide (0 ≤ v) && decide (v ≤ 1)) t,
        0 ≤ v ∧ v ≤ 1 := by
      intro v hv
      have hvf := (List.mem_filter.mp (mem_of_mem_remove_outliers hv)).2
      simpa [Bool.and_eq_true, decide_eq_true_eq] using hvf
    exact Set.mem_Icc.mpr ⟨le_popMean hne fun v hv => (hmem v hv).1,
      popMean_le hne fun v hv => (hmem v hv).2⟩

theorem taste_of_mem_Icc (l : List ℚ) (t : ℚ) :
    taste_of l t ∈ Set.Icc (0 : ℚ) 1 := by
  simp only [taste_of]
  split_ifs with h
  · simp
  · have hne : remove_outliers (l.filter fun v => decide (1 ≤ v) && decide (v ≤ 5)) t ≠ [] :=
      fun hc => h (by rw [hc]; rfl)
    have hmem : ∀ v ∈ remove_outliers (l.filter fun v => decide (1 ≤ v) && decide (v ≤ 5)) t,
        1 ≤ v ∧ v ≤ 5 := by
      intro v hv
      have hvf := (List.mem_filter.mp (mem_of_mem_remove_outliers hv)).2
      simpa [Bool.and_eq_true, decide_eq_true_eq] using hvf
    have h1 := le_popMean hne fun v hv => (hmem v hv).1
    have h5 := popMean_le hne fun v hv => (hmem v hv).2
    exact Set.mem_Icc.mpr ⟨by linarith, by linarith⟩

theorem touch_of_mem_Icc (l : List SuccessValue) :
    touch_of l ∈ Set.Icc (0 : ℚ) 1 := by
  simp only [touch_of]
  split_ifs with h
  · simp
  · have hne : l ≠ [] := fun hc => h (by rw [hc]; rfl)
    have hlen : (0 : ℚ) < (l.length : ℚ) := by
      exact_mod_cast List.length_pos.mpr hne
    have hcount : ((l.countP SuccessValue.isTrue : ℕ) : ℚ) ≤ (l.length : ℚ) := by
      exact_mod_cast List.countP_le_length _
    exact Set.mem_Icc.mpr ⟨div_nonneg (by positivity) hlen.le,
      (div_le_one hlen).mpr hcount⟩

theorem smell_of_mem_Icc (l : List ℚ) (t : ℚ) :
    smell_of l t ∈ Set.Icc (0 : ℚ) 1 := by
  simp only [smell_of]
  split_ifs with h1 h2
  · simp
  · -- survivors exist and some absolute value is positive
    have habs : ∀ a ∈ (remove_outliers l t).map (fun v => |v|), 0 ≤ a := by
      intro a ha
      obtain ⟨v, -, rfl⟩ := List.mem_map.mp ha
      exact abs_nonneg v
    have hne : (remove_outliers l t).map (fun v => |v|) ≠ [] :=
      fun hc => h1 (by rw [hc]; rfl)
    obtain ⟨a, ha, hapos⟩ : ∃ a ∈ (remove_outliers l t).map (fun v => |v|), 0 < a := by
      have := h2
      simp only [Bool.and_eq_true, List.any_eq_true, decide_eq_true_eq] at this
      obtain ⟨-, a, ha, hapos⟩ := this
      exact ⟨a, ha, hapos⟩
    have hmax : 0 < listMax ((remove_outliers l t).map fun v => |v|) :=
      lt_of_lt_of_le hapos (le_listMax ha)
    have hmean0 : 0 ≤ popMean ((remove_outliers l t).map fun v => |v|) :=
      le_popMean hne habs
    have hmeanle : popMean ((remove_outliers l t).map fun v => |v|)
        ≤ listMax ((remove_outliers l t).map fun v => |v|) :=
      popMean_le hne fun v hv => le_listMax hv
    exact Set.mem_Icc.mpr ⟨div_nonneg hmean0 hmax.le, (div_le_one hmax).mpr hmeanle⟩
  · -- survivors exist but every absolute value is 0
    have hne : (remove_outliers l t).map (fun v => |v|) ≠ [] :=
      fun hc => h1 (by rw [hc]; rfl)
    have hzero : ∀ a ∈ (remove_outliers l t).map (fun v => |v|), a = 0 := by
      simp only [Bool.and_eq_true, List.any_eq_true, decide_eq_true_eq,
        Bool.not_eq_true'] at h2
      push_neg at h2
      have hEmp : ((remove_outliers l t).map (fun v => |v|)).isEmpty = false := by
        simp [List.isEmpty_eq_false, hne]
      intro a ha
      have hle : a ≤ 0 := h2 hEmp a ha
      obtain ⟨v, -, rfl⟩ := List.mem_map.mp ha
      exact le_antisymm hle (abs_nonneg v)
    have hmean : popMean ((remove_outliers l t).map fun v => |v|) = 0 :=
      le_antisymm (popMean_le hne fun v hv => le_of_eq (hzero v hv))
        (le_popMean hne fun v hv => ge_of_eq (hzero v hv))
    rw [hmean]
    simp

/-- Claim C1: for every valid bundle (all five required keys present,
all-boolean `application_successes`) and every positive threshold,
`compute_senses` succeeds, each of the five scores hear/see/smell/touch/taste
lies in `[0, 1]`, and the composite (their arithmetic mean) lies in
`[0, 1]`. -/
theorem C1_range_invariant (d : RatingsData) (t : ℚ)
    (hvalid : validBundle d = true) (_ht : 0 < t) :
    compute_senses (.dict d) t = .ok (metadata_of d t, composite_of d t) ∧
    (∀ s ∈ senses_values d t, s ∈ Set.Icc (0 : ℚ) 1) ∧
    composite_of d t ∈ Set.Icc (0 : ℚ) 1 := by
  have hscores : ∀ s ∈ senses_values d t, s ∈ Set.Icc (0 : ℚ) 1 := by
    intro s hs
    simp only [senses_values, List.mem_cons, List.not_mem_nil, or_false] at hs
    rcases hs with rfl | rfl | rfl | rfl | rfl
    · exact hear_of_mem_Icc _ _
    · exact see_of_mem_Icc _ _
    · exact smell_of_mem_Icc _ _
    · exact touch_of_mem_Icc _
    · exact taste_of_mem_Icc _ _
  refine ⟨?_, hscores, ?_⟩
  · simp only [validBundle, Bool.and_eq_true] at hvalid
    simp [compute_senses, hvalid.1, hvalid.2]
  · have hne : senses_values d t ≠ [] := by simp [senses_values]
    exact Set.mem_Icc.mpr
      ⟨le_popMean hne fun s hs => (Set.mem_Icc.mp (hscores s hs)).1,
       popMean_le hne fun s hs => (Set.mem_Icc.mp (hscores s hs)).2⟩

/-- Witness for C1 on the reference bundle with threshold `3`. -/
theorem C1_witness :
    (validBundle ⟨some [0.8, 0.9, 0.7], some [0.85, 0.75, 0.9],
        some [1.2, 0.5, -0.3],
        some [.boolean true, .boolean true, .boolean false],
        some [4.5, 5.0, 3.8], none⟩ = true ∧ (0 : ℚ) < 3) ∧
    (∀ s ∈ senses_values ⟨some [0.8, 0.9, 0.7], some [0.85, 0.75, 0.9],
        some [1.2, 0.5, -0.3],
        some [.boolean true, .boolean true, .boolean false],
        some [4.5, 5.0, 3.8], none⟩ 3, s ∈ Set.Icc (0 : ℚ) 1) :=
  ⟨⟨rfl, by norm_num⟩,
   (C1_range_invariant ⟨some [0.8, 0.9, 0.7], some [0.85, 0.75, 0.9],
        some [1.2, 0.5, -0.3],
        some [.boolean true, .boolean true, .boolean false],
        some [4.5, 5.0, 3.8], none⟩ 3 rfl (by norm_num)).2.1⟩

theorem length_mul_lt_sum (xs : List ℚ) (a : ℚ) (hne : xs ≠ [])
    (h : ∀ v ∈ xs, a < v) : (xs.length : ℚ) * a < xs.sum := by
  induction xs with
  | nil => exact absurd rfl hne
  | cons x l ih =>
    rcases eq_or_ne l [] with rfl | hl
    · simpa using h x (by simp)
    · have h1 := ih hl fun v hv => h v (List.mem_cons_of_mem x hv)
      have hx := h x (by simp)
      simp only [List.length_cons, List.sum_cons]
      push_cast
      nlinarith [h1, hx]

/-- At least one value deviates from the mean by no more than one standard
deviation: its squared deviation is at most the population variance. -/
theorem exists_sq_dev_le_popVar (xs : List ℚ) (hne : xs ≠ []) :
    ∃ v ∈ xs, (v - popMean xs) ^ 2 ≤ popVar xs := by
  by_contra hcon
  push_neg at hcon
  have hn : (0 : ℚ) < (xs.length : ℚ) := by
    exact_mod_cast List.length_pos.mpr hne
  have hmapne : (xs.map fun v => (v - popMean xs) ^ 2) ≠ [] := by
    simp [hne]
  have hall : ∀ y ∈ xs.map fun v => (v - popMean xs) ^ 2, popVar xs < y := by
    intro y hy
    obtain ⟨v, hv, rfl⟩ := List.mem_map.mp hy
    exact hcon v hv
  have hlt := length_mul_lt_sum _ (popVar xs) hmapne hall
  rw [List.length_map] at hlt
  have heq : (xs.map fun v => (v - popMean xs) ^ 2).sum
      = (xs.length : ℚ) * popVar xs := by
    rw [popVar]
    field_simp
  rw [heq] at hlt
  exact lt_irrefl _ hlt

/-- Claim C9: on every non-empty list and every threshold `≥ 1`,
`remove_outliers` returns a non-empty list: some element closest to the mean
has `|v − μ| ≤ σ`, hence a z-score `σ/(σ + 1e-9) < 1 ≤ threshold`, so the
all-filtered empty result is unreachable. -/
theorem C9_result_nonempty (xs : List ℚ) (t : ℚ) (hne : xs ≠ [])
    (ht : 1 ≤ t) : remove_outliers xs t ≠ [] := by
  unfold remove_outliers
  split_ifs with h1 h2
  · exact hne
  · exact hne
  · obtain ⟨v, hv, hsq⟩ := exists_sq_dev_le_popVar xs hne
    have hεpos : (0 : ℚ) < zEps := by norm_num [zEps]
    have hkeep : zscoreLe (popMean xs) (popVar xs) t v = true := by
      unfold zscoreLe
      split_ifs with ha hb
      · linarith
      · rfl
      · simp only [decide_eq_true_eq]
        push_neg at hb
        have h2a : 0 < t * zEps := mul_pos (lt_of_lt_of_le one_pos ht) hεpos
        have ht2 : 1 ≤ t ^ 2 := by nlinarith [ht]
        have hvar0 := popVar_nonneg xs
        have hstep1 : (|v - popMean xs| - t * zEps) ^ 2 ≤ |v - popMean xs| ^ 2 := by
          nlinarith [mul_pos h2a (sub_pos.mpr hb)]
        have hstep2 : |v - popMean xs| ^ 2 ≤ popVar xs := by
          rw [sq_abs]
          exact hsq
        nlinarith [hstep1, hstep2, ht2, hvar0]
    exact List.ne_nil_of_mem (List.mem_filter.mpr ⟨hv, hkeep⟩)

/-- Witness for C9 at `[0, 4]` with threshold `1`. -/
theorem C9_witness :
    (([0, 4] : List ℚ) ≠ [] ∧ (1 : ℚ) ≤ 1) ∧ remove_outliers [0, 4] 1 ≠ [] :=
  ⟨⟨by simp, le_refl 1⟩, C9_result_nonempty [0, 4] 1 (by simp) (le_refl 1)⟩

/-- Cauchy–Schwarz with the all-ones vector: the square of a list's sum is at
most its length times its sum of squares. -/
theorem sq_sum_le_length_mul_sum_sq (l : List ℚ) :
    l.sum ^ 2 ≤ (l.length : ℚ) * (l.map fun v => v ^ 2).sum := by
  induction l with
  | nil => simp
  | cons x l ih =>
    rcases eq_or_ne l [] with rfl | hl
    · simp
    · have hQ : 0 ≤ (l.map fun v => v ^ 2).sum :=
        List.sum_nonneg fun y hy => by
          obtain ⟨v, -, rfl⟩ := List.mem_map.mp hy
          positivity
      have hn1 : (1 : ℚ) ≤ (l.length : ℚ) := by
        exact_mod_cast List.length_pos.mpr hl
      simp only [List.length_cons, List.sum_cons, List.map_cons]
      push_cast
      nlinarith [sq_nonneg ((l.length : ℚ) * x - l.sum), ih, hQ, hn1]

theorem sum_map_sub_const (xs : List ℚ) (c : ℚ) :
    (xs.map fun x => x - c).sum = xs.sum - (xs.length : ℚ) * c := by
  induction xs with
  | nil => simp
  | cons x l ih =>
    simp only [List.map_cons, List.sum_cons, List.length_cons, ih]
    push_cast
    ring

theorem sum_dev_eq_zero (xs : List ℚ) (hne : xs ≠ []) :
    (xs.map fun x => x - popMean xs).sum = 0 := by
  rw [sum_map_sub_const, popMean]
  have hn : ((xs.length : ℚ)) ≠ 0 := by
    exact_mod_cast (List.length_pos.mpr hne).ne'
  field_simp

/-- Samuelson's inequality for the embedded statistics: every squared
deviation from the mean is at most `(N − 1)` times the sum of squared
deviations divided by `N` — i.e. `(v − μ)² ≤ (N − 1)·σ²`. -/
theorem samuelson (xs : List ℚ) (v : ℚ) (hv : v ∈ xs) :
    (xs.length : ℚ) * (v - popMean xs) ^ 2
      ≤ ((xs.length : ℚ) - 1) * ((xs.map fun x => (x - popMean xs) ^ 2).sum) := by
  have hne : xs ≠ [] := List.ne_nil_of_mem hv
  have hd : v - popMean xs ∈ xs.map fun x => x - popMean xs :=
    List.mem_map_of_mem _ hv
  have hperm : (xs.map fun x => x - popMean xs).Perm
      ((v - popMean xs) :: (xs.map fun x => x - popMean xs).erase (v - popMean xs)) :=
    List.perm_cons_erase hd
  have hsum0 : (xs.map fun x => x - popMean xs).sum = 0 := sum_dev_eq_zero xs hne
  have hsuml : ((xs.map fun x => x - popMean xs).erase (v - popMean xs)).sum
      = -(v - popMean xs) := by
    have h := hperm.sum_eq
    simp only [List.sum_cons] at h
    rw [hsum0] at h
    linarith
  have hllen : ((((xs.map fun x => x - popMean xs).erase (v - popMean xs)).length : ℕ) : ℚ)
      = (xs.length : ℚ) - 1 := by
    rw [List.length_erase_of_mem hd, List.length_map]
    have h1 : 1 ≤ xs.length := List.length_pos.mpr hne
    push_cast [Nat.cast_sub h1]
    ring
  have hsq : ((xs.map fun x => x - popMean xs).map fun d => d ^ 2).sum
      = (v - popMean xs) ^ 2
        + (((xs.map fun x => x - popMean xs).erase (v - popMean xs)).map
            fun d => d ^ 2).sum := by
    have h := (hperm.map fun d => d ^ 2).sum_eq
    simpa using h
  have hCS := sq_sum_le_length_mul_sum_sq
    ((xs.map fun x => x - popMean xs).erase (v - popMean xs))
  rw [hsuml, hllen, neg_sq] at hCS
  have hmapeq : ((xs.map fun x => x - popMean xs).map fun d => d ^ 2)
      = xs.map fun x => (x - popMean xs) ^ 2 := by
    rw [List.map_map]
    rfl
  rw [hmapeq] at hsq
  rw [hsq]
  nlinarith [hCS]

/-- With the default threshold `3.0`, `remove_outliers` never removes
anything from a list of at most 10 samples: by Samuelson's inequality every
z-score is below `√(N − 1) ≤ 3`. -/
theorem remove_outliers_small_eq (xs : List ℚ) (h2 : 2 ≤ xs.length)
    (h10 : xs.length ≤ 10) : remove_outliers xs 3 = xs := by
  unfold remove_outliers
  rw [if_neg (by omega)]
  split_ifs with hvar
  · rfl
  · rw [List.filter_eq_self]
    intro v hv
    have hSam := samuelson xs v hv
    have hne : xs ≠ [] := List.ne_nil_of_mem hv
    have hn : (0 : ℚ) < (xs.length : ℚ) := by
      exact_mod_cast List.length_pos.mpr hne
    have hQ : (xs.map fun x => (x - popMean xs) ^ 2).sum
        = (xs.length : ℚ) * popVar xs := by
      rw [popVar]
      field_simp
    rw [hQ] at hSam
    have hsq : (v - popMean xs) ^ 2 ≤ ((xs.length : ℚ) - 1) * popVar xs := by
      nlinarith [hSam, hn]
    have h9 : ((xs.length : ℚ) - 1) ≤ 9 := by
      have h10' : (xs.length : ℚ) ≤ 10 := by exact_mod_cast h10
      linarith
    have hvar0 := popVar_nonneg xs
    unfold zscoreLe
    split_ifs with ha hb
    · norm_num at ha
    · rfl
    · simp only [decide_eq_true_eq]
      push_neg at hb
      have hεpos : (0 : ℚ) < zEps := by norm_num [zEps]
      have h3ε : (0 : ℚ) < 3 * zEps := by linarith
      have hstep1 : (|v - popMean xs| - 3 * zEps) ^ 2 ≤ |v - popMean xs| ^ 2 := by
        nlinarith [mul_pos h3ε (sub_pos.mpr hb)]
      have hstep2 : |v - popMean xs| ^ 2 ≤ 9 * popVar xs := by
        rw [sq_abs]
        nlinarith [hsq, h9, hvar0]
      nlinarith [hstep1, hstep2]

/-- Claim C10, counterexample: the claimed z-score bound `(n − 1)/√n` is wrong.
On the list `[0, 1]` (n = 2) the element `1` has z-score
`(1/2)/(1/2 + 1e-9) ≈ 1`, which exceeds `(2 − 1)/√2 ≈ 0.707`.
(The correct bound is Samuelson's `√(n − 1)`.) -/
theorem C10_counterexample :
    ¬ (∀ v ∈ ([0, 1] : List ℚ),
        |(v : ℝ) - ((popMean [0, 1] : ℚ) : ℝ)| / (popStd [0, 1] + ((zEps : ℚ) : ℝ))
          ≤ ((([0, 1] : List ℚ).length : ℝ) - 1)
              / Real.sqrt ((([0, 1] : List ℚ).length : ℝ))) := by
  intro h
  have h1 := h 1 (by simp)
  have hσ : popStd [0, 1] = 1 / 2 := by
    rw [popStd, show popVar [0, 1] = 1 / 4 by norm_num [popVar, popMean],
      show (((1 / 4 : ℚ)) : ℝ) = (1 / 2 : ℝ) ^ 2 by norm_num]
    exact Real.sqrt_sq (by norm_num)
  rw [hσ, show popMean [0, 1] = 1 / 2 by norm_num [popMean],
    show ((zEps : ℚ) : ℝ) = 1 / 1000000000 by norm_num [zEps]] at h1
  simp only [List.length_cons, List.length_nil] at h1
  push_cast at h1
  have hL : (0.9 : ℝ) ≤ |(1 : ℝ) - 1 / 2| / (1 / 2 + 1 / 1000000000) := by
    rw [show |(1 : ℝ) - 1 / 2| = 1 / 2 by rw [abs_of_pos] <;> norm_num,
      le_div_iff₀ (by norm_num)]
    norm_num
  have hs2 : (1.2 : ℝ) < Real.sqrt 2 := by
    rw [Real.lt_sqrt (by norm_num)]
    norm_num
  have hs2pos : (0 : ℝ) < Real.sqrt 2 := by linarith
  have hR : (2 - 1 : ℝ) / Real.sqrt 2 < 0.9 := by
    rw [div_lt_iff₀ hs2pos]
    nlinarith [hs2]
  linarith

/-- Claim C10 (amended): for every list of `n` values with `2 ≤ n ≤ 10`,
`remove_outliers` with the default threshold `3.0` returns the list
unchanged: by Samuelson's inequality every element's z-score is below
`√(n − 1)`, which is at most `3` for `n ≤ 10` (the claimed bound
`(n − 1)/√n` is wrong, see the counterexample; the conclusion survives with
the corrected bound). -/
theorem C10_small_sample_unchanged (xs : List ℚ) (h2 : 2 ≤ xs.length)
    (h10 : xs.length ≤ 10) : remove_outliers xs 3 = xs :=
  remove_outliers_small_eq xs h2 h10

/-- Witness for C10 on `[0, 1000000]`: even an extreme value among 2 samples
is not removed. -/
theorem C10_witness :
    (2 ≤ ([0, 1000000] : List ℚ).length ∧ ([0, 1000000] : List ℚ).length ≤ 10) ∧
    remove_outliers [0, 1000000] 3 = [0, 1000000] :=
  ⟨⟨by decide, by decide⟩,
   C10_small_sample_unchanged [0, 1000000] (by decide) (by decide)⟩

/-- Claim C8: `compute_senses` fails with a single error and no partial result
whenever (i) the argument is not a mapping, (ii) any required key is missing
— the error then carries *all* missing keys (exactly the required keys the
bundle lacks, in the order of `required_keys`), taking precedence over every
other check and over all numeric computation — or (iii) all keys are present
but `application_successes` contains a non-boolean element. -/
theorem C8_validation_errors :
    (∀ t : ℚ, compute_senses .notADict t = .error .notADict) ∧
    (∀ (d : RatingsData) (t : ℚ), requiredMissing d ≠ [] →
      compute_senses (.dict d) t = .error (.missingKeys (requiredMissing d))) ∧
    (∀ (d : RatingsData) (k : String),
      k ∈ requiredMissing d ↔ k ∈ required_keys ∧ hasKey d k = false) ∧
    (∀ (d : RatingsData) (t : ℚ), requiredMissing d = [] →
      ¬ (d.application_successes.getD []).all SuccessValue.isBoolean = true →
      compute_senses (.dict d) t = .error .nonBooleanSuccess) := by
  refine ⟨fun _ => rfl, ?_, ?_, ?_⟩
  · intro d t h
    have hEmp : (requiredMissing d).isEmpty = false := by
      simp [List.isEmpty_eq_false, h]
    simp [compute_senses, hEmp]
  · intro d k
    simp [requiredMissing, List.mem_filter, Bool.not_eq_true']
  · intro d t h hb
    have hb' : (d.application_successes.getD []).all SuccessValue.isBoolean = false :=
      Bool.eq_false_iff.mpr hb
    simp [compute_senses, h, hb']

/-- Witness for C8: a bundle missing two keys reports both of them (even
though its `application_successes` also contains a non-boolean), and a
complete bundle with a non-boolean success element fails with the
boolean-homogeneity error. -/
theorem C8_witness :
    (requiredMissing ⟨none, some [], none, some [.nonBoolean], some [], none⟩ ≠ [] ∧
      compute_senses
          (.dict ⟨none, some [], none, some [.nonBoolean], some [], none⟩) 3
        = .error (.missingKeys ["coherence_ratings", "novelty_indicators"])) ∧
    (compute_senses
        (.dict ⟨some [], some [], some [], some [.boolean true, .nonBoolean],
          some [], none⟩) 3
      = .error .nonBooleanSuccess) := by
  have hmiss : requiredMissing ⟨none, some [], none, some [.nonBoolean], some [], none⟩
      = ["coherence_ratings", "novelty_indicators"] := rfl
  refine ⟨⟨by rw [hmiss]; simp, ?_⟩, ?_⟩
  · rw [C8_validation_errors.2.1 _ 3 (by rw [hmiss]; simp), hmiss]
  · exact C8_validation_errors.2.2.2 _ 3 rfl (by simp [SuccessValue.isBoolean])

end Senses
